import Mathlib

/-!
Verification of the convolutional dictionary learning code in `CDL.py`
against its natural-language specification.

Matrices are shallowly embedded as total functions `ℕ → ℕ → ℚ` (or `ℝ`
where square roots are involved); shape information is passed explicitly,
mirroring `ndarray.shape`.  Python 2 semantics are modelled faithfully:
`/` on ints is floor division (`Nat.div` here), float arithmetic is
modelled by exact rationals/reals.
-/

/-! ### Global magic numbers (module constants of CDL.py, lines 20-28).
All were floats in the source; they are exact decimal fractions, embedded
as rationals and cast into `ℝ` where the solver state is real-valued. -/

def RHO_INIT_A : ℚ := 2 / 1000

def RHO_INIT_D : ℚ := 2 / 10

def RHO_MIN : ℚ := 1 / 1000000

def RHO_MAX : ℚ := 1000000

def ABSTOL : ℚ := 1 / 10000

def RELTOL : ℚ := 1 / 1000

def MU : ℚ := 10

def TAU : ℚ := 2

def T_CHECKUP : ℕ := 5

/-! ### Complex/block algebra (CDL.py lines 66-134)

`columns_to_diags` builds, from a real-stacked `2d×m` matrix `D`, the
sparse `2d×2dm` block matrix `Q = [A, -B; B, A]` whose `k`-th `d×d`
sub-block of `A` (resp. `B`) is `diag(D[:d, k])` (resp. `diag(D[d:, k])`).
Entry-level translation: `Q[i][j]` is nonzero only when the column `j`
(within its half) is congruent to the row `i` (within its half) modulo
`d`, and then holds `±D[·][j / d]`. -/

def columns_to_diags (d m : ℕ) (D : ℕ → ℕ → ℚ) : ℕ → ℕ → ℚ := fun i j =>
  if i < d then
    (if j < d * m then
      (if j % d = i then D i (j / d) else 0)
     else
      (if (j - d * m) % d = i then -D (d + i) ((j - d * m) / d) else 0))
  else
    (if j < d * m then
      (if j % d = i - d then D (d + (i - d)) (j / d) else 0)
     else
      (if (j - d * m) % d = i - d then D (i - d) ((j - d * m) / d) else 0))

/-- `diags_to_columns` (CDL.py lines 66-95): for `k = 0, d, 2d, …` it reads
`D[:d, k/d] = Q[range(d), range(k, k+d)]` and
`D[d:, k/d] = Q[range(d, 2d), range(k, k+d)]`, i.e. entry `(i, c)` of the
result is `Q i (c*d + i)` for `i < d` and `Q i (c*d + (i - d))` otherwise. -/
def diags_to_columns (d m : ℕ) (Q : ℕ → ℕ → ℚ) : ℕ → ℕ → ℚ := fun i c =>
  if i < d then Q i (c * d + i) else Q i (c * d + (i - d))

/-- C1: for every real-stacked matrix `D` with `2d` rows and `m` columns
(`d, m ≥ 1` implied by the index bounds), converting to the block-diagonal
operator form and back is the identity on every in-range entry:
`diags_to_columns (columns_to_diags D) = D` element-for-element. -/
theorem c1_block_roundtrip (d m : ℕ) (D : ℕ → ℕ → ℚ) (i c : ℕ)
    (hi : i < 2 * d) (hc : c < m) :
    diags_to_columns d m (columns_to_diags d m D) i c = D i c := by
  have hd : 0 < d := by omega
  unfold diags_to_columns columns_to_diags
  by_cases h : i < d
  · have hlt : c * d + i < d * m := by
      calc c * d + i < c * d + d := by omega
        _ = (c + 1) * d := by ring
        _ ≤ m * d := Nat.mul_le_mul_right d (by omega)
        _ = d * m := Nat.mul_comm m d
    have hmod : (c * d + i) % d = i := by
      rw [Nat.mul_comm c d, Nat.mul_add_mod d c i, Nat.mod_eq_of_lt h]
    have hdiv : (c * d + i) / d = c := by
      rw [Nat.add_comm, Nat.mul_comm c d, Nat.add_mul_div_left i c hd,
        Nat.div_eq_of_lt h, Nat.zero_add]
    simp [h, hlt, hmod, hdiv]
  · have hi' : i - d < d := by omega
    have hlt : c * d + (i - d) < d * m := by
      calc c * d + (i - d) < c * d + d := by omega
        _ = (c + 1) * d := by ring
        _ ≤ m * d := Nat.mul_le_mul_right d (by omega)
        _ = d * m := Nat.mul_comm m d
    have hmod : (c * d + (i - d)) % d = i - d := by
      rw [Nat.mul_comm c d, Nat.mul_add_mod d c (i - d), Nat.mod_eq_of_lt hi']
    have hdiv : (c * d + (i - d)) / d = c := by
      rw [Nat.add_comm, Nat.mul_comm c d, Nat.add_mul_div_left (i - d) c hd,
        Nat.div_eq_of_lt hi', Nat.zero_add]
    have hdi : d + (i - d) = i := by omega
    simp [h, hlt, hmod, hdiv, hdi]

/-- C1 witness: the round trip evaluated at a concrete `2×1` dictionary. -/
theorem c1_block_roundtrip_witness :
    (1 < 2 * 1 ∧ 0 < 1) ∧
      diags_to_columns 1 1 (columns_to_diags 1 1
        (fun i _ => if i = 0 then 3 else 7)) 1 0 =
      (fun (i _ : ℕ) => if i = 0 then (3 : ℚ) else 7) 1 0 :=
  ⟨⟨by decide, by decide⟩,
    c1_block_roundtrip 1 1 (fun i _ => if i = 0 then 3 else 7) 1 0
      (by decide) (by decide)⟩

/-! ### real2_to_complex (CDL.py lines 47-63)

`real2_to_complex(Y)` computes `d = Y.shape[0] / 2` (Python 2 floor
division on ints) and returns `Y[:d, :] + 1.j * Y[d:, :]` with no shape
validation.  The numpy addition broadcasts its two operands along the row
axis: shapes `(r1, n)` and `(r2, n)` combine when `r1 = r2` or one of them
is `1`; otherwise numpy raises (a generic broadcast error).  A complex
entry is embedded as a pair `(re, im)`; the top half of `Y` lands in the
real component and the bottom half (times `1j`) in the imaginary one. -/

def broadcast_rows (r1 r2 : ℕ) : Option ℕ :=
  if r1 = r2 then some r1
  else if r1 = 1 then some r2
  else if r2 = 1 then some r1
  else none

def real2_to_complex (rws : ℕ) (Y : ℕ → ℕ → ℚ) :
    Except Unit (ℕ × (ℕ → ℕ → ℚ × ℚ)) :=
  let d := rws / 2
  match broadcast_rows d (rws - d) with
  | some rr =>
      Except.ok (rr, fun i j =>
        (Y (if d = 1 then 0 else i) j,
         Y (d + (if rws - d = 1 then 0 else i)) j))
  | none => Except.error ()

/-- C7 counterexample: a 3-row (odd!) input does not fail at all — the
floor split gives a 1-row real part which numpy silently broadcasts
against the 2-row imaginary part, so `real2_to_complex` returns a value
(and in particular no `ShapeError`). -/
theorem c7_counterexample :
    real2_to_complex 3 (fun i _ => (i : ℚ)) ≠ Except.error () := by
  simp [real2_to_complex, broadcast_rows]

/-- C7 (amended): `real2_to_complex` performs no shape validation.  For an
even row count `2d` it returns the `d`-row complex matrix pairing row `i`
with row `d + i`.  An odd row count is NOT rejected with a `ShapeError`:
the source has no such check (nor any `ShapeError` class); with 3 rows the
single real row is silently broadcast against both imaginary rows and a
2-row complex matrix is returned. -/
theorem c7_amended (rws : ℕ) (Y : ℕ → ℕ → ℚ) (i j : ℕ)
    (heven : rws % 2 = 0) (hi : i < rws / 2) :
    ((real2_to_complex rws Y).map Prod.fst = Except.ok (rws / 2) ∧
      (real2_to_complex rws Y).map (fun p => p.2 i j) =
        Except.ok (Y i j, Y (rws / 2 + i) j)) ∧
    (∀ Z : ℕ → ℕ → ℚ, ∀ l : ℕ,
      real2_to_complex 3 Z ≠ Except.error () ∧
      (real2_to_complex 3 Z).map (fun p => p.2 0 l) =
        Except.ok (Z 0 l, Z 1 l)) := by
  refine ⟨?_, ?_⟩
  · have hsplit : rws - rws / 2 = rws / 2 := by omega
    by_cases h1 : rws / 2 = 1
    · have h2 : rws = 2 := by omega
      subst h2
      have h3 : i = 0 := by omega
      subst h3
      simp [real2_to_complex, broadcast_rows, Except.map]
    · simp [real2_to_complex, broadcast_rows, hsplit, h1, Except.map]
  · intro Z l
    refine ⟨?_, ?_⟩
    · simp [real2_to_complex, broadcast_rows]
    · simp [real2_to_complex, broadcast_rows, Except.map]

/-- Concrete 2-row matrix used as the C7 witness input. -/
def Yw7 : ℕ → ℕ → ℚ := fun i j => i + j

/-- C7 witness: the even branch of the amended claim evaluated on a
concrete 2-row matrix. -/
theorem c7_amended_witness :
    (2 % 2 = 0 ∧ 0 < 2 / 2) ∧
      (((real2_to_complex 2 Yw7).map Prod.fst = Except.ok (2 / 2) ∧
        (real2_to_complex 2 Yw7).map (fun p => p.2 0 0) =
          Except.ok (Yw7 0 0, Yw7 (2 / 2 + 0) 0)) ∧
      (∀ Z : ℕ → ℕ → ℚ, ∀ l : ℕ,
        real2_to_complex 3 Z ≠ Except.error () ∧
        (real2_to_complex 3 Z).map (fun p => p.2 0 l) =
          Except.ok (Z 0 l, Z 1 l))) :=
  ⟨⟨by decide, by decide⟩, c7_amended 2 Yw7 0 0 (by decide) (by decide)⟩

/-! ### Work distribution: column ranges (CDL.py lines 729-734)

The parallel encoder computes `B = n / n_threads` (floor) and fills the
input queue with pairs `(i, min(n, i + B))` for `i in xrange(0, n, B)`.
`xrange(0, n, B)` enumerates `0, B, 2B, …` while `< n`, i.e. it has
`⌈n / B⌉ = (n + B - 1) / B` elements when `B > 0`. -/

def task_ranges (n B : ℕ) : List (ℕ × ℕ) :=
  (List.range ((n + B - 1) / B)).map (fun q => (q * B, min n (q * B + B)))

/-- C8 counterexample: with `n = 5` signals and `num_workers = 2`
(`num_workers > 1` and `n ≥ num_workers`, so the claim applies), the block
size is `B = 5 / 2 = 2` and the queue receives THREE ranges
`(0,2), (2,4), (4,5)` — not exactly `num_workers = 2` ranges. -/
theorem c8_counterexample : ¬((task_ranges 5 (5 / 2)).length = 2) := by
  decide

/-- C8 (amended): for `2 ≤ num_workers = k ≤ n` and `B = n / k` the queue
holds `⌈n / B⌉ ≥ k` contiguous ranges covering `0..n`; range `q` is
`(q·B, min n (q·B + B))`, every range except possibly the last has size
exactly `B`, the last has size between 1 and `B`, and the number of
ranges equals `k` exactly when `k` divides `n`. -/
theorem c8_amended (n k : ℕ) (hk : 2 ≤ k) (hkn : k ≤ n) :
    (task_ranges n (n / k)).length = (n + n / k - 1) / (n / k) ∧
    k ≤ (task_ranges n (n / k)).length ∧
    ((task_ranges n (n / k)).length = k ↔ k ∣ n) ∧
    (∀ q, q < (task_ranges n (n / k)).length →
      ((task_ranges n (n / k)).getD q (0, 0)).1 = q * (n / k) ∧
      ((task_ranges n (n / k)).getD q (0, 0)).2 =
        min n (q * (n / k) + n / k)) ∧
    (∀ q, q + 1 < (task_ranges n (n / k)).length →
      ((task_ranges n (n / k)).getD q (0, 0)).2 -
        ((task_ranges n (n / k)).getD q (0, 0)).1 = n / k) ∧
    ((task_ranges n (n / k)).getD ((task_ranges n (n / k)).length - 1)
        (0, 0)).2 = n ∧
    1 ≤ ((task_ranges n (n / k)).getD ((task_ranges n (n / k)).length - 1)
        (0, 0)).2 -
      ((task_ranges n (n / k)).getD ((task_ranges n (n / k)).length - 1)
        (0, 0)).1 ∧
    ((task_ranges n (n / k)).getD ((task_ranges n (n / k)).length - 1)
        (0, 0)).2 -
      ((task_ranges n (n / k)).getD ((task_ranges n (n / k)).length - 1)
        (0, 0)).1 ≤ n / k := by
  set B := n / k with hB
  have hBpos : 0 < B := Nat.div_pos hkn (by omega)
  have hn1 : 1 ≤ n := by omega
  have hlen : (task_ranges n B).length = (n + B - 1) / B := by
    simp [task_ranges]
  -- the ceiling, rewritten without truncated subtraction
  have hceil : (n + B - 1) / B = (n - 1) / B + 1 := by
    rw [show n + B - 1 = (n - 1) + B by omega, Nat.add_div_right _ hBpos]
  have hgetD : ∀ q, q < (task_ranges n B).length →
      (task_ranges n B).getD q (0, 0) = (q * B, min n (q * B + B)) := by
    intro q hq
    rw [hlen] at hq
    rw [List.getD_eq_getElem _ _ (by simpa [task_ranges] using hq)]
    simp [task_ranges]
  have hkB : B * k ≤ n := by
    have h1 : n / k * k ≤ n := Nat.div_mul_le_self n k
    have h2 : B * k = n / k * k := by rw [hB]
    omega
  have hdm : B * ((n - 1) / B) + (n - 1) % B = n - 1 := Nat.div_add_mod _ _
  have hmlt : (n - 1) % B < B := Nat.mod_lt _ hBpos
  have hq0B : ((n - 1) / B) * B = B * ((n - 1) / B) := Nat.mul_comm _ _
  have hk1B : (k - 1) * B + B = B * k := by
    calc (k - 1) * B + B = ((k - 1) + 1) * B := by ring
      _ = k * B := by rw [show k - 1 + 1 = k by omega]
      _ = B * k := Nat.mul_comm _ _
  have hklen : k ≤ (n - 1) / B + 1 := by
    have h4 : (k - 1) * B ≤ n - 1 := by omega
    have h5 : k - 1 ≤ (n - 1) / B := (Nat.le_div_iff_mul_le hBpos).2 h4
    omega
  have hcovP : ((n - 1) / B + 1) * B = B * ((n - 1) / B) + B := by ring
  have hcov : n ≤ ((n - 1) / B + 1) * B := by omega
  have hminlast : min n (((n - 1) / B) * B + B) = n := by
    apply Nat.min_eq_left
    omega
  refine ⟨hlen, ?_, ?_, ?_, ?_, ?_, ?_, ?_⟩
  · rw [hlen, hceil]; exact hklen
  · -- length = k ↔ k ∣ n
    rw [hlen, hceil]
    constructor
    · intro hlk
      have h6 : ((n - 1) / B + 1) * B = k * B := by rw [hlk]
      have h7 : k * B = B * k := Nat.mul_comm _ _
      exact ⟨B, by omega⟩
    · rintro ⟨c, hc⟩
      have hcB : B = c := by
        rw [hB, hc, Nat.mul_div_cancel_left c (show 0 < k by omega)]
      rw [hcB]
      have hcpos : 0 < c := by omega
      have hq : (n - 1) / c = k - 1 := by
        rw [show n - 1 = (c - 1) + c * (k - 1) from ?_]
        · rw [Nat.add_mul_div_left _ _ hcpos,
            Nat.div_eq_of_lt (show c - 1 < c by omega), Nat.zero_add]
        · have h8 : c * (k - 1) + c = c * k := by
            calc c * (k - 1) + c = c * ((k - 1) + 1) := by ring
              _ = c * k := by rw [show k - 1 + 1 = k by omega]
          have h9 : c * k = k * c := Nat.mul_comm _ _
          omega
      omega
  · intro q hq
    rw [hgetD q hq]
    exact ⟨rfl, rfl⟩
  · intro q hq
    have hq' : q < (task_ranges n B).length := by omega
    rw [hgetD q hq']
    rw [hlen, hceil] at hq
    have h2 : q + 1 ≤ (n - 1) / B := by omega
    have h3 : (q + 1) * B ≤ n - 1 := (Nat.le_div_iff_mul_le hBpos).1 h2
    have h4 : (q + 1) * B = q * B + B := by ring
    have h5 : q * B + B ≤ n := by omega
    rw [Nat.min_eq_right h5]
    omega
  · have hlast : (task_ranges n B).length - 1 < (task_ranges n B).length := by
      rw [hlen, hceil]; omega
    rw [hgetD _ hlast, hlen, hceil]
    simp only [Nat.add_sub_cancel]
    exact hminlast
  · have hlast : (task_ranges n B).length - 1 < (task_ranges n B).length := by
      rw [hlen, hceil]; omega
    rw [hgetD _ hlast, hlen, hceil]
    simp only [Nat.add_sub_cancel]
    rw [hminlast]
    omega
  · have hlast : (task_ranges n B).length - 1 < (task_ranges n B).length := by
      rw [hlen, hceil]; omega
    rw [hgetD _ hlast, hlen, hceil]
    simp only [Nat.add_sub_cancel]
    rw [hminlast]
    omega

/-- C8 witness: the amended description evaluated at `n = 6`, `k = 2`
(divisible case: exactly two ranges of size three). -/
theorem c8_amended_witness :
    (2 ≤ 2 ∧ 2 ≤ 6) ∧
      ((task_ranges 6 (6 / 2)).length = (6 + 6 / 2 - 1) / (6 / 2) ∧
        2 ≤ (task_ranges 6 (6 / 2)).length ∧
        ((task_ranges 6 (6 / 2)).length = 2 ↔ 2 ∣ 6) ∧
        (∀ q, q < (task_ranges 6 (6 / 2)).length →
          ((task_ranges 6 (6 / 2)).getD q (0, 0)).1 = q * (6 / 2) ∧
          ((task_ranges 6 (6 / 2)).getD q (0, 0)).2 =
            min 6 (q * (6 / 2) + 6 / 2)) ∧
        (∀ q, q + 1 < (task_ranges 6 (6 / 2)).length →
          ((task_ranges 6 (6 / 2)).getD q (0, 0)).2 -
            ((task_ranges 6 (6 / 2)).getD q (0, 0)).1 = 6 / 2) ∧
        ((task_ranges 6 (6 / 2)).getD ((task_ranges 6 (6 / 2)).length - 1)
            (0, 0)).2 = 6 ∧
        1 ≤ ((task_ranges 6 (6 / 2)).getD ((task_ranges 6 (6 / 2)).length - 1)
            (0, 0)).2 -
          ((task_ranges 6 (6 / 2)).getD ((task_ranges 6 (6 / 2)).length - 1)
            (0, 0)).1 ∧
        ((task_ranges 6 (6 / 2)).getD ((task_ranges 6 (6 / 2)).length - 1)
            (0, 0)).2 -
          ((task_ranges 6 (6 / 2)).getD ((task_ranges 6 (6 / 2)).length - 1)
            (0, 0)).1 ≤ 6 / 2) :=
  ⟨⟨by decide, by decide⟩, c8_amended 6 2 (by decide) (by decide)⟩

/-! ### Online averaging of encoding statistics (CDL.py lines 1037, 1059-1068)

In `learn_dictionary`, after encoding 1-based batch `T`, the sufficient
statistics are merged with weight `alpha = (1.0 - 1.0/T)**beta` where
`beta = 1.0` is fixed; the first batch is taken as-is and every later
batch is averaged in:  `StS = alpha*StS + (1-alpha)*StS_new` (same for
`StX`).  `(1 - 1/T) ** 1.0` equals `(1 - 1/T) ^ (1 : ℕ)` exactly. -/

def cdl_beta : ℕ := 1

def cdl_alpha (T : ℕ) : ℚ := (1 - 1 / (T : ℚ)) ^ cdl_beta

def stats_update (T : ℕ) (prev fresh : ℕ → ℕ → ℚ) : ℕ → ℕ → ℚ :=
  if T = 1 then fresh
  else fun r c => cdl_alpha T * prev r c + (1 - cdl_alpha T) * fresh r c

/-- C9: after 1-based batch `T ≥ 1` the running statistics satisfy
`St ← α·St + (1−α)·St_new` with `α = (1 − 1/T)^β`, `β = 1` fixed; at
`T = 1` the weight `α` is `0`, so the first batch enters with weight one
(the special-cased `T == 1` branch agrees with the formula). -/
theorem c9_stats_merge (T : ℕ) (prev fresh : ℕ → ℕ → ℚ) (r c : ℕ)
    (hT : 1 ≤ T) :
    (stats_update T prev fresh r c =
      cdl_alpha T * prev r c + (1 - cdl_alpha T) * fresh r c) ∧
    (T = 1 → stats_update T prev fresh r c = fresh r c) := by
  constructor
  · unfold stats_update
    by_cases h1 : T = 1
    · subst h1
      simp [cdl_alpha, cdl_beta]
    · simp [h1]
  · intro h1
    subst h1
    simp [stats_update]

/-- C9 witness: the merge rule evaluated at `T = 2` on concrete constant
statistics (`α = 1/2`, so the result is the average). -/
theorem c9_stats_merge_witness :
    1 ≤ 2 ∧
      (stats_update 2 (fun _ _ => 3) (fun _ _ => 5) 0 0 =
        cdl_alpha 2 * (fun (_ _ : ℕ) => (3 : ℚ)) 0 0 +
          (1 - cdl_alpha 2) * (fun (_ _ : ℕ) => (5 : ℚ)) 0 0) ∧
      (2 = 1 → stats_update 2 (fun _ _ => 3) (fun _ _ => 5) 0 0 =
        (fun (_ _ : ℕ) => (5 : ℚ)) 0 0) :=
  ⟨by decide, (c9_stats_merge 2 (fun _ _ => 3) (fun _ _ => 5) 0 0 (by decide)).1,
    (c9_stats_merge 2 (fun _ _ => 3) (fun _ _ => 5) 0 0 (by decide)).2⟩

/-! ### Adaptive penalty update (CDL.py lines 644-657 and 872-885)

Both ADMM solvers run the identical update at every convergence checkup
that did not stop:  if `ERR_primal > MU * ERR_dual and rho * TAU <
RHO_MAX` then `rho *= TAU` and the scaled dual variable is divided by
`TAU`; elif `ERR_dual > MU * ERR_primal and rho / TAU > RHO_MIN` then
`rho /= TAU` and the dual is multiplied by `TAU`; else both are left
unchanged.  `rho_update` returns the new `rho` together with the scalar
factor applied to the dual variable (`1/TAU`, `TAU` or `1`).  It is
polymorphic so that the rational-valued policy analysis and the
real-valued encoder embedding share one definition. -/

def rho_update {α : Type} [LinearOrderedField α] (rho errP errD : α) :
    α × α :=
  if errP > (MU : α) * errD ∧ rho * (TAU : α) < (RHO_MAX : α) then
    (rho * (TAU : α), 1 / (TAU : α))
  else if errD > (MU : α) * errP ∧ rho / (TAU : α) > (RHO_MIN : α) then
    (rho / (TAU : α), (TAU : α))
  else (rho, 1)

/-- Iterating the penalty update over an arbitrary sequence of residual
pairs, as the checkups of one solve do. -/
def rho_iter {α : Type} [LinearOrderedField α] (rho0 : α)
    (errs : List (α × α)) : α :=
  errs.foldl (fun r e => (rho_update r e.1 e.2).1) rho0

lemma two_zpow_ne_nat (N a : ℕ) (h1 : 2 ^ a < N) (h2 : N < 2 ^ (a + 1)) :
    ∀ j : ℤ, (2 : ℚ) ^ j ≠ (N : ℚ) := by
  intro j hj
  rcases j with u | u
  · rw [Int.ofNat_eq_coe, zpow_natCast] at hj
    have h4 : 2 ^ u = N := by exact_mod_cast hj
    rcases Nat.lt_or_ge u (a + 1) with h5 | h5
    · have h6 : 2 ^ u ≤ 2 ^ a := Nat.pow_le_pow_right (by omega) (by omega)
      omega
    · have h6 : 2 ^ (a + 1) ≤ 2 ^ u := Nat.pow_le_pow_right (by omega) h5
      omega
  · have h3 : ((N : ℚ)) = ((2 : ℚ) ^ (u + 1))⁻¹ := by rw [← hj, zpow_negSucc]
    have h6 : (1 : ℚ) ≤ (2 : ℚ) ^ (u + 1) := by
      have h0 : (1 : ℕ) ≤ 2 ^ (u + 1) := Nat.one_le_two_pow
      exact_mod_cast h0
    have h7 : ((2 : ℚ) ^ (u + 1))⁻¹ ≤ 1 := inv_le_one_of_one_le₀ h6
    have h8 : (2 : ℚ) ≤ (N : ℚ) := by
      have h9 : (1 : ℕ) ≤ 2 ^ a := Nat.one_le_two_pow
      exact_mod_cast (show 2 ≤ N by omega)
    linarith

/-- A penalty value reachable inside a solve (`RHO_INIT_A` or
`RHO_INIT_D` times an integer power of `TAU`) is positive and never sits
exactly on `RHO_MAX / TAU` or `RHO_MIN * TAU`, because `5·10^8`, `10^3`,
`2.5·10^6` and `10^5` are not integer powers of two. -/
lemma rho_reach_ne (rho : ℚ) (j : ℤ)
    (hj : rho = RHO_INIT_A * TAU ^ j ∨ rho = RHO_INIT_D * TAU ^ j) :
    0 < rho ∧ rho * TAU ≠ RHO_MAX ∧ rho / TAU ≠ RHO_MIN := by
  have h2j : (0 : ℚ) < (2 : ℚ) ^ j := zpow_pos (by norm_num) j
  rcases hj with h | h <;> subst h
  · refine ⟨?_, ?_, ?_⟩
    · simp only [RHO_INIT_A, TAU]
      exact mul_pos (by norm_num) h2j
    · intro heq
      simp only [RHO_INIT_A, TAU, RHO_MAX] at heq
      have h3 : (2 : ℚ) ^ j = ((250000000 : ℕ) : ℚ) := by
        push_cast
        linarith
      exact two_zpow_ne_nat 250000000 27 (by norm_num) (by norm_num) j h3
    · intro heq
      simp only [RHO_INIT_A, TAU, RHO_MIN] at heq
      have h3 : (2 : ℚ) ^ j = 1 / 1000 := by linarith
      have h4 : (2 : ℚ) ^ (-j) = ((1000 : ℕ) : ℚ) := by
        rw [zpow_neg, h3]
        push_cast
        norm_num
      exact two_zpow_ne_nat 1000 9 (by norm_num) (by norm_num) (-j) h4
  · refine ⟨?_, ?_, ?_⟩
    · simp only [RHO_INIT_D, TAU]
      exact mul_pos (by norm_num) h2j
    · intro heq
      simp only [RHO_INIT_D, TAU, RHO_MAX] at heq
      have h3 : (2 : ℚ) ^ j = ((2500000 : ℕ) : ℚ) := by
        push_cast
        linarith
      exact two_zpow_ne_nat 2500000 21 (by norm_num) (by norm_num) j h3
    · intro heq
      simp only [RHO_INIT_D, TAU, RHO_MIN] at heq
      have h3 : (2 : ℚ) ^ j = 1 / 100000 := by linarith
      have h4 : (2 : ℚ) ^ (-j) = ((100000 : ℕ) : ℚ) := by
        rw [zpow_neg, h3]
        push_cast
        norm_num
      exact two_zpow_ne_nat 100000 16 (by norm_num) (by norm_num) (-j) h4

lemma rho_update_bounds (rho errP errD : ℚ)
    (h1 : RHO_MIN < rho) (h2 : rho < RHO_MAX) :
    RHO_MIN < (rho_update rho errP errD).1 ∧
      (rho_update rho errP errD).1 < RHO_MAX := by
  unfold rho_update
  simp only [Rat.cast_id]
  split_ifs with hA hB
  · refine ⟨?_, hA.2⟩
    simp only [RHO_MIN, TAU] at *
    linarith
  · refine ⟨hB.2, ?_⟩
    simp only [RHO_MIN, RHO_MAX, TAU] at *
    linarith
  · exact ⟨h1, h2⟩

lemma rho_iter_bounds (rho0 : ℚ) (errs : List (ℚ × ℚ))
    (h1 : RHO_MIN < rho0) (h2 : rho0 < RHO_MAX) :
    RHO_MIN < rho_iter rho0 errs ∧ rho_iter rho0 errs < RHO_MAX := by
  induction errs generalizing rho0 with
  | nil => exact ⟨h1, h2⟩
  | cons e t ih =>
    have hb := rho_update_bounds rho0 e.1 e.2 h1 h2
    simpa [rho_iter, List.foldl_cons] using
      ih ((rho_update rho0 e.1 e.2).1) hb.1 hb.2

/-- C2: at a checkup where the solve continues, `rho` is multiplied by
`TAU` (and the scaled dual divided by `TAU`) exactly when the primal
residual exceeds `MU` times the dual residual and `rho*TAU` has not
exceeded `RHO_MAX`; symmetrically it is divided by `TAU` (dual multiplied
by `TAU`) exactly when the dual residual exceeds `MU` times the primal
and `rho/TAU` has not dropped below `RHO_MIN`; otherwise it is unchanged.
The hypotheses say `rho` is reachable (`RHO_INIT_A` or `RHO_INIT_D` times
a power of `TAU` — on such values the non-strict spec reading and the
strict code test agree) and that the residuals are norms, hence
nonnegative.  Moreover, iterating from `RHO_INIT_A` or `RHO_INIT_D`,
`rho` stays strictly between `RHO_MIN` and `RHO_MAX` for every sequence
of checkups. -/
theorem c2_penalty_policy :
    (∀ (rho errP errD : ℚ) (j : ℤ),
      (rho = RHO_INIT_A * TAU ^ j ∨ rho = RHO_INIT_D * TAU ^ j) →
      0 ≤ errP → 0 ≤ errD →
      ((rho_update rho errP errD = (rho * TAU, 1 / TAU) ↔
          MU * errD < errP ∧ rho * TAU ≤ RHO_MAX) ∧
       (rho_update rho errP errD = (rho / TAU, TAU) ↔
          MU * errP < errD ∧ RHO_MIN ≤ rho / TAU) ∧
       (¬(MU * errD < errP ∧ rho * TAU ≤ RHO_MAX) →
        ¬(MU * errP < errD ∧ RHO_MIN ≤ rho / TAU) →
          rho_update rho errP errD = (rho, 1)))) ∧
    (∀ errs : List (ℚ × ℚ),
      (RHO_MIN < rho_iter RHO_INIT_A errs ∧
        rho_iter RHO_INIT_A errs < RHO_MAX) ∧
      (RHO_MIN < rho_iter RHO_INIT_D errs ∧
        rho_iter RHO_INIT_D errs < RHO_MAX)) := by
  constructor
  · intro rho errP errD j hj hP hD
    obtain ⟨hpos, hne1, hne2⟩ := rho_reach_ne rho j hj
    have hmux : ¬(MU * errD < errP ∧ MU * errP < errD) := by
      rintro ⟨u, v⟩
      simp only [MU] at u v
      linarith
    unfold rho_update
    simp only [Rat.cast_id]
    split_ifs with hc1 hc2
    · refine ⟨?_, ?_, ?_⟩
      · exact ⟨fun _ => ⟨hc1.1, le_of_lt hc1.2⟩, fun _ => rfl⟩
      · constructor
        · intro he
          exact absurd (congrArg Prod.snd he)
            (by simp only [TAU]; norm_num)
        · intro hcond
          exact absurd ⟨hc1.1, hcond.1⟩ hmux
      · intro hn1 _
        exact absurd ⟨hc1.1, le_of_lt hc1.2⟩ hn1
    · refine ⟨?_, ?_, ?_⟩
      · constructor
        · intro he
          exact absurd (congrArg Prod.snd he)
            (by simp only [TAU]; norm_num)
        · intro hcond
          exact absurd ⟨hcond.1, lt_of_le_of_ne hcond.2 hne1⟩ hc1
      · exact ⟨fun _ => ⟨hc2.1, le_of_lt hc2.2⟩, fun _ => rfl⟩
      · intro _ hn2
        exact absurd ⟨hc2.1, le_of_lt hc2.2⟩ hn2
    · refine ⟨?_, ?_, ?_⟩
      · constructor
        · intro he
          exact absurd (congrArg Prod.snd he)
            (by simp only [TAU]; norm_num)
        · intro hcond
          exact absurd ⟨hcond.1, lt_of_le_of_ne hcond.2 hne1⟩ hc1
      · constructor
        · intro he
          exact absurd (congrArg Prod.snd he)
            (by simp only [TAU]; norm_num)
        · intro hcond
          exact absurd ⟨hcond.1, lt_of_le_of_ne hcond.2 (Ne.symm hne2)⟩ hc2
      · intro _ _
        rfl
  · intro errs
    exact
      ⟨rho_iter_bounds RHO_INIT_A errs
          (by norm_num [RHO_MIN, RHO_INIT_A]) (by norm_num [RHO_INIT_A, RHO_MAX]),
       rho_iter_bounds RHO_INIT_D errs
          (by norm_num [RHO_MIN, RHO_INIT_D]) (by norm_num [RHO_INIT_D, RHO_MAX])⟩

/-- C2 witness: the upscale branch evaluated at `rho = RHO_INIT_A`
(reachable with `j = 0`), a positive primal residual and a zero dual
residual, together with the bound invariant after one checkup. -/
theorem c2_penalty_policy_witness :
    (RHO_INIT_A = RHO_INIT_A * TAU ^ (0 : ℤ) ∨
      RHO_INIT_A = RHO_INIT_D * TAU ^ (0 : ℤ)) ∧
    (0 : ℚ) ≤ 1 ∧ (0 : ℚ) ≤ 0 ∧
    (rho_update RHO_INIT_A 1 0 = (RHO_INIT_A * TAU, 1 / TAU) ↔
      MU * 0 < 1 ∧ RHO_INIT_A * TAU ≤ RHO_MAX) ∧
    (RHO_MIN < rho_iter RHO_INIT_A [(1, 0)] ∧
      rho_iter RHO_INIT_A [(1, 0)] < RHO_MAX) :=
  ⟨Or.inl (by simp), by norm_num, le_refl 0,
    (c2_penalty_policy.1 RHO_INIT_A 1 0 0 (Or.inl (by simp))
      (by norm_num) (le_refl 0)).1,
    (c2_penalty_policy.2 [(1, 0)]).1⟩

/-! ### Unit l2-ball projection (CDL.py lines 509-537)

`proj_l2_ball(X, m)` works on a vectorised dictionary `X` of length
`2dm` (all real parts first, all imaginary parts after, codeword `k`
occupying positions `k*d..k*d+d-1` of each half).  It computes
`Xnorm = X[:dm]**2 + X[dm:]**2`, per-codeword norms
`Z[k] = max(1.0, sqrt(sum(Xnorm[k*d:(k+1)*d])))`, tiles `Z` over both
halves and returns `X / Z`. -/

/-- The aggregate l2 norm of codeword `k` inside a `2dm` real+imaginary
stacked vector (the `sqrt(sum(Xnorm[k*d:(k+1)*d]))` of the source). -/
noncomputable def codeword_norm (d m : ℕ) (X : ℕ → ℝ) (k : ℕ) : ℝ :=
  Real.sqrt (∑ j ∈ Finset.range d,
    (X (k * d + j) ^ 2 + X (d * m + (k * d + j)) ^ 2))

noncomputable def proj_l2_ball (d m : ℕ) (X : ℕ → ℝ) : ℕ → ℝ :=
  fun i =>
    X i / (if i < d * m then max 1 (codeword_norm d m X (i / d))
           else max 1 (codeword_norm d m X ((i - d * m) / d)))

lemma codeword_index_real (d m k j : ℕ) (hk : k < m) (hj : j < d) :
    k * d + j < d * m ∧ (k * d + j) / d = k := by
  constructor
  · calc k * d + j < k * d + d := by omega
      _ = (k + 1) * d := by ring
      _ ≤ m * d := Nat.mul_le_mul_right d (by omega)
      _ = d * m := Nat.mul_comm m d
  · rw [Nat.add_comm, Nat.mul_comm k d, Nat.add_mul_div_left j k (by omega),
      Nat.div_eq_of_lt hj, Nat.zero_add]

lemma codeword_norm_nonneg (d m : ℕ) (X : ℕ → ℝ) (k : ℕ) :
    0 ≤ codeword_norm d m X k := Real.sqrt_nonneg _

lemma codeword_norm_sq (d m : ℕ) (X : ℕ → ℝ) (k : ℕ) :
    codeword_norm d m X k ^ 2 =
      ∑ j ∈ Finset.range d,
        (X (k * d + j) ^ 2 + X (d * m + (k * d + j)) ^ 2) := by
  rw [codeword_norm, Real.sq_sqrt]
  apply Finset.sum_nonneg
  intro j _
  positivity

/-- C4: `proj_l2_ball` leaves a codeword whose norm is `≤ 1` exactly
unchanged, rescales a codeword whose norm exceeds `1` to norm exactly
`1`, and hence every output codeword has norm `≤ 1`. -/
theorem c4_unit_ball_projection (d m : ℕ) (X : ℕ → ℝ) (k : ℕ)
    (hk : k < m) :
    (codeword_norm d m X k ≤ 1 →
      ∀ j, j < d →
        proj_l2_ball d m X (k * d + j) = X (k * d + j) ∧
        proj_l2_ball d m X (d * m + (k * d + j)) = X (d * m + (k * d + j))) ∧
    (1 < codeword_norm d m X k →
      codeword_norm d m (proj_l2_ball d m X) k = 1) ∧
    codeword_norm d m (proj_l2_ball d m X) k ≤ 1 := by
  have hdiv : ∀ j, j < d →
      proj_l2_ball d m X (k * d + j) =
        X (k * d + j) / max 1 (codeword_norm d m X k) ∧
      proj_l2_ball d m X (d * m + (k * d + j)) =
        X (d * m + (k * d + j)) / max 1 (codeword_norm d m X k) := by
    intro j hj
    obtain ⟨hlt, hq⟩ := codeword_index_real d m k j hk hj
    constructor
    · rw [proj_l2_ball, if_pos hlt, hq]
    · have h1 : ¬(d * m + (k * d + j) < d * m) := by omega
      rw [proj_l2_ball, if_neg h1, Nat.add_sub_cancel_left, hq]
  have hout : codeword_norm d m (proj_l2_ball d m X) k =
      codeword_norm d m X k / max 1 (codeword_norm d m X k) := by
    set Z := max 1 (codeword_norm d m X k) with hZ
    have hZpos : 0 < Z := lt_of_lt_of_le one_pos (le_max_left _ _)
    have hsum : (∑ j ∈ Finset.range d,
        (proj_l2_ball d m X (k * d + j) ^ 2 +
          proj_l2_ball d m X (d * m + (k * d + j)) ^ 2)) =
        (∑ j ∈ Finset.range d,
          (X (k * d + j) ^ 2 + X (d * m + (k * d + j)) ^ 2)) / Z ^ 2 := by
      rw [Finset.sum_div]
      apply Finset.sum_congr rfl
      intro j hj
      obtain ⟨h1, h2⟩ := hdiv j (Finset.mem_range.mp hj)
      rw [h1, h2, div_pow, div_pow, div_add_div_same]
    rw [codeword_norm, hsum,
      Real.sqrt_div (Finset.sum_nonneg (fun j _ => by positivity)) _,
      Real.sqrt_sq (le_of_lt hZpos)]
    rfl
  refine ⟨?_, ?_, ?_⟩
  · intro h j hj
    obtain ⟨h1, h2⟩ := hdiv j hj
    exact ⟨by rw [h1, max_eq_left h, div_one],
           by rw [h2, max_eq_left h, div_one]⟩
  · intro h
    rw [hout, max_eq_right (le_of_lt h),
      div_self (ne_of_gt (lt_trans one_pos h))]
  · rcases le_or_lt (codeword_norm d m X k) 1 with h | h
    · rw [hout, max_eq_left h, div_one]
      exact h
    · rw [hout, max_eq_right (le_of_lt h),
        div_self (ne_of_gt (lt_trans one_pos h))]

/-- Concrete one-codeword input for the C4 witness (norm `2 > 1`). -/
noncomputable def Xw4 : ℕ → ℝ := fun i => if i = 0 then 2 else 0

/-- C4 witness: the projection bound applied at a concrete input whose
single codeword has norm `2`. -/
theorem c4_unit_ball_projection_witness :
    0 < 1 ∧ codeword_norm 1 1 (proj_l2_ball 1 1 Xw4) 0 ≤ 1 :=
  ⟨by norm_num, (c4_unit_ball_projection 1 1 Xw4 0 (by norm_num)).2.2⟩

/-! ### Group-l2 regularization (CDL.py lines 386-471)

`reg_l2_group(X, rho, lam, m)` works on a `2dm×n` activation matrix.
For codeword `k` and signal `i` the inlined kernel accumulates
`Z[k,i] = sqrt( sum_j X[k*d+j, i]^2 + X[(k+m)*d+j, i]^2 )`, then with
`threshold = lam/rho` writes, for every coordinate `j` of the group,
`Xout = (1 - threshold/Z) * X` when `Z > threshold` and `Xout = 0`
otherwise.  Entry-wise translation: an output row `r` belongs to codeword
`r / d` when `r < dm` and to codeword `(r - dm) / d` otherwise. -/

noncomputable def group_norm (d m : ℕ) (X : ℕ → ℕ → ℝ) (k c : ℕ) : ℝ :=
  Real.sqrt (∑ j ∈ Finset.range d,
    (X (k * d + j) c ^ 2 + X ((k + m) * d + j) c ^ 2))

noncomputable def reg_l2_group (d m : ℕ) (rho lam : ℝ) (X : ℕ → ℕ → ℝ) :
    ℕ → ℕ → ℝ := fun r c =>
  if group_norm d m X (if r < d * m then r / d else (r - d * m) / d) c >
      lam / rho then
    (1 - (lam / rho) /
        group_norm d m X (if r < d * m then r / d else (r - d * m) / d) c) *
      X r c
  else 0

lemma codeword_index_imag (d m k j : ℕ) (hk : k < m) (hj : j < d) :
    ¬((k + m) * d + j < d * m) ∧ ((k + m) * d + j - d * m) / d = k := by
  have h1 : (k + m) * d + j = d * m + (k * d + j) := by ring
  constructor
  · omega
  · rw [h1, Nat.add_sub_cancel_left]
    exact (codeword_index_real d m k j hk hj).2

/-- C5: for every activation matrix, signal column and codeword,
`reg_l2_group` zeroes every coordinate of the codeword's group (real and
imaginary) when the group's aggregate norm is below `lam/rho`, and
otherwise scales every coordinate by `1 - (lam/rho)/norm` (at the
boundary `norm = lam/rho`, the code's zeroing and the scale factor `0`
agree). -/
theorem c5_group_l2 (d m : ℕ) (rho lam : ℝ) (X : ℕ → ℕ → ℝ)
    (k c j : ℕ) (hk : k < m) (hj : j < d) (hrho : 0 < rho) (hlam : 0 < lam) :
    (group_norm d m X k c < lam / rho →
      reg_l2_group d m rho lam X (k * d + j) c = 0 ∧
      reg_l2_group d m rho lam X ((k + m) * d + j) c = 0) ∧
    (lam / rho ≤ group_norm d m X k c →
      reg_l2_group d m rho lam X (k * d + j) c =
        (1 - (lam / rho) / group_norm d m X k c) * X (k * d + j) c ∧
      reg_l2_group d m rho lam X ((k + m) * d + j) c =
        (1 - (lam / rho) / group_norm d m X k c) * X ((k + m) * d + j) c) := by
  obtain ⟨hltR, hqR⟩ := codeword_index_real d m k j hk hj
  obtain ⟨hltI, hqI⟩ := codeword_index_imag d m k j hk hj
  have hR : reg_l2_group d m rho lam X (k * d + j) c =
      if group_norm d m X k c > lam / rho then
        (1 - (lam / rho) / group_norm d m X k c) * X (k * d + j) c
      else 0 := by
    rw [reg_l2_group, if_pos hltR, hqR]
  have hI : reg_l2_group d m rho lam X ((k + m) * d + j) c =
      if group_norm d m X k c > lam / rho then
        (1 - (lam / rho) / group_norm d m X k c) * X ((k + m) * d + j) c
      else 0 := by
    rw [reg_l2_group, if_neg hltI, hqI]
  constructor
  · intro h
    rw [hR, hI]
    rw [if_neg (by linarith), if_neg (by linarith)]
    exact ⟨rfl, rfl⟩
  · intro h
    rcases lt_or_eq_of_le h with hlt | heq
    · rw [hR, hI, if_pos hlt, if_pos hlt]
      exact ⟨rfl, rfl⟩
    · have hz : (1 - (lam / rho) / group_norm d m X k c) = 0 := by
        rw [← heq, div_self (ne_of_gt (by positivity)), sub_self]
      rw [hR, hI, if_neg (by rw [← heq]; exact lt_irrefl _), hz,
        if_neg (by rw [← heq]; exact lt_irrefl _)]
      exact ⟨by ring, by ring⟩

/-- Concrete `2×1` activation matrix for the C5 witness (group norm `5`). -/
noncomputable def Xw5 : ℕ → ℕ → ℝ := fun r _ =>
  if r = 0 then 3 else if r = 1 then 4 else 0

/-- C5 witness: the scaling branch applied at a concrete input with
`d = m = 1`, `rho = lam = 1` and group norm `5 ≥ 1`. -/
theorem c5_group_l2_witness :
    (0 < 1 ∧ (1 : ℝ) / 1 ≤ group_norm 1 1 Xw5 0 0) ∧
      (reg_l2_group 1 1 1 1 Xw5 (0 * 1 + 0) 0 =
        (1 - ((1 : ℝ) / 1) / group_norm 1 1 Xw5 0 0) * Xw5 (0 * 1 + 0) 0 ∧
       reg_l2_group 1 1 1 1 Xw5 ((0 + 1) * 1 + 0) 0 =
        (1 - ((1 : ℝ) / 1) / group_norm 1 1 Xw5 0 0) *
          Xw5 ((0 + 1) * 1 + 0) 0) := by
  have hnorm : group_norm 1 1 Xw5 0 0 = 5 := by
    rw [group_norm]
    rw [show (∑ j ∈ Finset.range 1,
        (Xw5 (0 * 1 + j) 0 ^ 2 + Xw5 ((0 + 1) * 1 + j) 0 ^ 2)) =
        (5 : ℝ) ^ 2 by norm_num [Finset.sum_range_succ, Xw5]]
    exact Real.sqrt_sq (by norm_num)
  have hle : (1 : ℝ) / 1 ≤ group_norm 1 1 Xw5 0 0 := by
    rw [hnorm]; norm_num
  exact ⟨⟨by norm_num, hle⟩,
    (c5_group_l2 1 1 1 1 Xw5 0 0 0 (by norm_num) (by norm_num)
      (by norm_num) (by norm_num)).2 hle⟩

/-! ### Low-pass regularization (CDL.py lines 474-507)

`reg_lowpass(A, rho, lam, width, height)` builds
`lowpass = numpy.array([[-1, 0, 1]]) / 2` — NOTE: the literal array has
integer dtype, so under Python 2 the division by 2 floors entrywise and
the filter actually used is `[[-1, 0, 0]]` — then
`H = fft2(lowpass, s=(height, width))` (the input is cropped/zero-padded
to shape `(height, width)`, which the total-function embedding absorbs:
entries outside the support are `0`), reshaped to a `(d, 1)` column in
Fortran order (`j ↦ (j % height, j / height)`), `abs`-ed and tiled over
all `2m` half-blocks (`r ↦ r % d`).  The output is `S * A` with
`S = (rho / lam) * (1.0 + H**2)**(-1)` — a fixed per-row gain. -/

/-- Entry `(k, l)` of numpy's unnormalised 2-D DFT of an `h×w` input. -/
noncomputable def fft2 (h w : ℕ) (g : ℕ → ℕ → ℂ) : ℕ → ℕ → ℂ := fun k l =>
  ∑ a ∈ Finset.range h, ∑ b ∈ Finset.range w,
    g a b * Complex.exp (-2 * Real.pi * Complex.I *
      (((k * a : ℕ) : ℂ) / (h : ℂ) + ((l * b : ℕ) : ℂ) / (w : ℂ)))

/-- The filter `numpy.array([[-1, 0, 1]]) / 2` after Python 2 integer
floor division: `[[-1, 0, 0]]`, as a total function. -/
def lowpass_filter : ℕ → ℕ → ℂ := fun a b =>
  if a = 0 ∧ b = 0 then -1 else 0

/-- The per-row gain `S` of `reg_lowpass`:
`(rho / lam) * (1 + |H|^2)⁻¹` at the row's position inside its
`d = width*height` block. -/
noncomputable def lowpass_gain (width height : ℕ) (rho lam : ℝ) (r : ℕ) :
    ℝ :=
  (rho / lam) *
    (1 + Complex.abs (fft2 height width lowpass_filter
        ((r % (width * height)) % height)
        ((r % (width * height)) / height)) ^ 2)⁻¹

noncomputable def reg_lowpass (width height : ℕ) (rho lam : ℝ)
    (A : ℕ → ℕ → ℝ) : ℕ → ℕ → ℝ := fun r c =>
  lowpass_gain width height rho lam r * A r c

/-- C10 counterexample: `reg_lowpass` is NOT a shrinkage for all
parameters.  With `width = height = 1`, `rho = 4`, `lam = 1` the gain is
`(4/1)·(1+1)⁻¹ = 2`, so the constant-1 activation is amplified to `2`:
the output magnitude strictly exceeds the input magnitude. -/
theorem c10_counterexample :
    |(1 : ℝ)| < |reg_lowpass 1 1 4 1 (fun _ _ => 1) 0 0| := by
  have hfft : fft2 1 1 lowpass_filter 0 0 = -1 := by
    simp [fft2, Finset.sum_range_succ, lowpass_filter]
  have habs : Complex.abs (fft2 1 1 lowpass_filter 0 0) = 1 := by
    rw [hfft, map_neg_eq_map, map_one]
  rw [reg_lowpass, lowpass_gain]
  norm_num [habs]

/-- C10 (amended): `reg_lowpass` multiplies each activation coefficient
by the fixed nonnegative factor `(rho/lam)·(1+|H|²)⁻¹` depending only on
`rho`, `lam` and the filter, so the map is linear and odd and involves no
thresholding; it never increases a coefficient's magnitude when
`rho ≤ lam`, but for `rho` large enough relative to `lam` the factor
exceeds one and coefficients are amplified (so it is not unconditionally
a shrinkage). -/
theorem c10_lowpass (width height : ℕ) (rho lam : ℝ)
    (A B : ℕ → ℕ → ℝ) (r c : ℕ) (hrho : 0 < rho) (hlam : 0 < lam) :
    (reg_lowpass width height rho lam A r c =
      lowpass_gain width height rho lam r * A r c) ∧
    0 ≤ lowpass_gain width height rho lam r ∧
    (reg_lowpass width height rho lam (fun u v => A u v + B u v) r c =
      reg_lowpass width height rho lam A r c +
        reg_lowpass width height rho lam B r c) ∧
    (reg_lowpass width height rho lam (fun u v => -(A u v)) r c =
      -(reg_lowpass width height rho lam A r c)) ∧
    (rho ≤ lam →
      |reg_lowpass width height rho lam A r c| ≤ |A r c|) := by
  have hgain : 0 ≤ lowpass_gain width height rho lam r := by
    rw [lowpass_gain]
    have h1 : (0 : ℝ) ≤ rho / lam := le_of_lt (div_pos hrho hlam)
    have h2 : (0 : ℝ) <
        1 + Complex.abs (fft2 height width lowpass_filter
          ((r % (width * height)) % height)
          ((r % (width * height)) / height)) ^ 2 := by positivity
    exact mul_nonneg h1 (le_of_lt (inv_pos.mpr h2))
  refine ⟨rfl, hgain, ?_, ?_, ?_⟩
  · simp only [reg_lowpass]
    ring
  · simp only [reg_lowpass]
    ring
  · intro hrl
    have hle1 : lowpass_gain width height rho lam r ≤ 1 := by
      rw [lowpass_gain]
      have h1 : rho / lam ≤ 1 := (div_le_one hlam).mpr hrl
      have h2 : (1 : ℝ) ≤
          1 + Complex.abs (fft2 height width lowpass_filter
            ((r % (width * height)) % height)
            ((r % (width * height)) / height)) ^ 2 :=
        le_add_of_nonneg_right (sq_nonneg _)
      have h3 : (1 + Complex.abs (fft2 height width lowpass_filter
            ((r % (width * height)) % height)
            ((r % (width * height)) / height)) ^ 2)⁻¹ ≤ 1 :=
        inv_le_one_of_one_le₀ h2
      have h4 : (0 : ℝ) ≤ (1 + Complex.abs (fft2 height width lowpass_filter
            ((r % (width * height)) % height)
            ((r % (width * height)) / height)) ^ 2)⁻¹ := by positivity
      calc rho / lam * (1 + Complex.abs (fft2 height width lowpass_filter
            ((r % (width * height)) % height)
            ((r % (width * height)) / height)) ^ 2)⁻¹ ≤ 1 * 1 :=
          mul_le_mul h1 h3 h4 (by norm_num)
        _ = 1 := by norm_num
    rw [reg_lowpass, abs_mul, abs_of_nonneg hgain]
    exact mul_le_of_le_one_left (abs_nonneg _) hle1

/-- Constant-one activation matrix for the C10 witness. -/
noncomputable def Aw10 : ℕ → ℕ → ℝ := fun _ _ => 1

/-- C10 witness: the amended description evaluated at `width = height =
1`, `rho = 1 ≤ lam = 2`, on the constant-one activation. -/
theorem c10_lowpass_witness :
    ((0 : ℝ) < 1 ∧ (0 : ℝ) < 2) ∧
      ((reg_lowpass 1 1 1 2 Aw10 0 0 = lowpass_gain 1 1 1 2 0 * Aw10 0 0) ∧
       0 ≤ lowpass_gain 1 1 1 2 0 ∧
       (reg_lowpass 1 1 1 2 (fun u v => Aw10 u v + Aw10 u v) 0 0 =
         reg_lowpass 1 1 1 2 Aw10 0 0 + reg_lowpass 1 1 1 2 Aw10 0 0) ∧
       (reg_lowpass 1 1 1 2 (fun u v => -(Aw10 u v)) 0 0 =
         -(reg_lowpass 1 1 1 2 Aw10 0 0)) ∧
       ((1 : ℝ) ≤ 2 →
         |reg_lowpass 1 1 1 2 Aw10 0 0| ≤ |Aw10 0 0|)) :=
  ⟨⟨by norm_num, by norm_num⟩,
    c10_lowpass 1 1 1 2 Aw10 Aw10 0 0 (by norm_num) (by norm_num)⟩

/-! ### The ADMM encoder (CDL.py lines 543-671)

State per solve: split variable `Z`, scaled dual `O` (both `dm×n` where
`(d, dm) = D.shape` — note the code's `d` is the stacked row count `2d`
of the data model), penalty `rho`, the cached diagonal `Dinv`, and the
diagnostics (one sample per checkup plus the converged flag).  Matrices
are total functions; shapes live in `EncParams`.  `reg` is the
regularization function argument, called as `reg(A + O, rho, Xout=Z)`.
All float arithmetic is exact-real. -/

abbrev Mat := ℕ → ℕ → ℝ

structure Sample where
  err_primal : ℝ
  err_dual : ℝ
  eps_primal : ℝ
  eps_dual : ℝ
  rho : ℝ

structure EncState where
  Z : Mat
  O : Mat
  rho : ℝ
  dinv : ℕ → ℝ
  samples : List Sample
  converged : Bool

structure EncParams where
  dd : ℕ                 -- `d` in `_encoder`: row count of D (= 2d)
  ddm : ℕ                -- `dm` in `_encoder`: column count of D (= 2dm)
  n : ℕ                  -- number of signal columns
  D : Mat
  X : Mat
  reg : Mat → ℝ → Mat

/-- Frobenius norm of the leading `rows × cols` block
(`scipy.linalg.norm`). -/
noncomputable def frob (rows cols : ℕ) (M : Mat) : ℝ :=
  Real.sqrt (∑ i ∈ Finset.range rows, ∑ j ∈ Finset.range cols, M i j ^ 2)

/-- `Dnorm = (D * D.T).diagonal()`. -/
noncomputable def Dnorm (p : EncParams) : ℕ → ℝ := fun i =>
  ∑ c ∈ Finset.range p.ddm, p.D i c ^ 2

/-- Precomputed `DX = D.T * X`. -/
noncomputable def DXmat (p : EncParams) : Mat := fun r c =>
  ∑ i ∈ Finset.range p.dd, p.D i r * p.X i c

/-- Row count `d * m` of the activation matrices `Z`, `O`, `A`
(`m = dm / d` by Python floor division). -/
def acts_rows (p : EncParams) : ℕ := p.dd * (p.ddm / p.dd)

/-- `Dinv = spdiags((1.0 + Dnorm / rho)**-1, 0, d, d)` as a diagonal. -/
noncomputable def dinv0 (p : EncParams) (rho : ℝ) : ℕ → ℝ := fun i =>
  (1 + Dnorm p i / rho)⁻¹

/-- The specialized ridge solver `_ridge(D, b, Dinv)`:
`(b - D.T * (Dinv * (D * b)) / rho) / rho`. -/
noncomputable def _ridge (p : EncParams) (rho : ℝ) (dinv : ℕ → ℝ)
    (b : Mat) : Mat := fun r c =>
  (b r c - (∑ i ∈ Finset.range p.dd,
      p.D i r * (dinv i * (∑ j ∈ Finset.range p.ddm, p.D i j * b j c))) /
    rho) / rho

/-- One iteration `t` of the ADMM loop of `_encoder`: ridge step,
regularizer step, dual update; every `T_CHECKUP` iterations the residuals
are computed, a diagnostics sample is recorded, the convergence test
either stops the loop (`converged := True; break`) or the penalty policy
`rho_update` rescales `rho`/`O` and refreshes `Dinv` (refreshing it with
an unchanged `rho` is the same diagonal, matching the code's skipping of
the update in the balanced branch).  Returns the new state and a Boolean
"break now". -/
noncomputable def encStep (p : EncParams) (t : ℕ) (s : EncState) :
    EncState × Bool :=
  let A : Mat := _ridge p s.rho s.dinv
      (fun r c => DXmat p r c + s.rho * (s.Z r c - s.O r c))
  let Zold : Mat := s.Z
  let Znew : Mat := p.reg (fun r c => A r c + s.O r c) s.rho
  let Onew : Mat := fun r c => s.O r c + A r c - Znew r c
  if t % T_CHECKUP ≠ 0 then
    ({ s with Z := Znew, O := Onew }, false)
  else
    let rn : ℕ := acts_rows p
    let errP : ℝ := frob rn p.n (fun r c => A r c - Znew r c)
    let errD : ℝ := s.rho * frob rn p.n (fun r c => Znew r c - Zold r c)
    let epsP : ℝ := Real.sqrt ((rn * p.n : ℕ) : ℝ) * ((ABSTOL : ℚ) : ℝ) +
      ((RELTOL : ℚ) : ℝ) * max (frob rn p.n A) (frob rn p.n Znew)
    let epsD : ℝ := Real.sqrt ((rn * p.n : ℕ) : ℝ) * ((ABSTOL : ℚ) : ℝ) +
      ((RELTOL : ℚ) : ℝ) * frob rn p.n Onew
    if errP < epsP ∧ errD ≤ epsD then
      ({ Z := Znew, O := Onew, rho := s.rho, dinv := s.dinv,
         samples := s.samples ++ [⟨errP, errD, epsP, epsD, s.rho⟩],
         converged := true }, true)
    else
      ({ Z := Znew,
         O := fun r c => Onew r c * (rho_update s.rho errP errD).2,
         rho := (rho_update s.rho errP errD).1,
         dinv := dinv0 p (rho_update s.rho errP errD).1,
         samples := s.samples ++ [⟨errP, errD, epsP, epsD, s.rho⟩],
         converged := s.converged }, false)

/-- The `for t in xrange(max_iter)` loop with `break` on convergence. -/
noncomputable def encLoop (p : EncParams) : ℕ → ℕ → EncState → EncState
  | 0, _, s => s
  | fuel + 1, t, s =>
    if (encStep p t s).2 then (encStep p t s).1
    else encLoop p fuel (t + 1) (encStep p t s).1

/-- Initial ADMM state of `_encoder`: `Z = O = 0`, `rho = RHO_INIT_A`,
cached `Dinv`, empty diagnostics. -/
noncomputable def encInit (p : EncParams) : EncState :=
  { Z := fun _ _ => 0, O := fun _ _ => 0, rho := ((RHO_INIT_A : ℚ) : ℝ),
    dinv := dinv0 p ((RHO_INIT_A : ℚ) : ℝ), samples := [],
    converged := false }

/-- `_encoder(X, D, reg, max_iter)` returns the final split variable `Z`
together with the diagnostics (the recorded samples and the converged
flag); it is total — non-convergence only means the fuel ran out. -/
noncomputable def _encoder (p : EncParams) (max_iter : ℕ) :
    Mat × List Sample × Bool :=
  ((encLoop p max_iter 0 (encInit p)).Z,
   (encLoop p max_iter 0 (encInit p)).samples,
   (encLoop p max_iter 0 (encInit p)).converged)

lemma encStep_cases (p : EncParams) (t : ℕ) (s : EncState) :
    ((encStep p t s).1.converged = s.converged ∧ (encStep p t s).2 = false ∧
      ((encStep p t s).1.samples = s.samples ∨
       ∃ sm, (encStep p t s).1.samples = s.samples ++ [sm] ∧
         ¬(sm.err_primal < sm.eps_primal ∧ sm.err_dual ≤ sm.eps_dual))) ∨
    ((encStep p t s).1.converged = true ∧ (encStep p t s).2 = true ∧
      ∃ sm, (encStep p t s).1.samples = s.samples ++ [sm] ∧
        (sm.err_primal < sm.eps_primal ∧ sm.err_dual ≤ sm.eps_dual)) := by
  simp only [encStep]
  split_ifs with h1 h2
  · exact Or.inl ⟨rfl, rfl, Or.inl rfl⟩
  · exact Or.inr ⟨rfl, rfl, ⟨_, rfl, h2⟩⟩
  · exact Or.inl ⟨rfl, rfl, Or.inr ⟨_, rfl, h2⟩⟩

lemma encLoop_converged_iff (p : EncParams) :
    ∀ (fuel t : ℕ) (s : EncState), s.converged = false →
    (∀ x ∈ s.samples,
      ¬(x.err_primal < x.eps_primal ∧ x.err_dual ≤ x.eps_dual)) →
    ((encLoop p fuel t s).converged = true ↔
      ∃ x ∈ (encLoop p fuel t s).samples,
        x.err_primal < x.eps_primal ∧ x.err_dual ≤ x.eps_dual) := by
  intro fuel
  induction fuel with
  | zero =>
    intro t s hc hs
    simp only [encLoop]
    refine iff_of_false (by simp [hc]) ?_
    rintro ⟨x, hx, hp⟩
    exact hs x hx hp
  | succ fuel ih =>
    intro t s hc hs
    simp only [encLoop]
    rcases encStep_cases p t s with ⟨h1, h2, h3⟩ | ⟨h1, h2, h3⟩
    · rw [h2]
      simp only [Bool.false_eq_true, if_false]
      apply ih
      · rw [h1, hc]
      · rcases h3 with h3 | ⟨sm, hsm, hns⟩
        · rw [h3]; exact hs
        · rw [hsm]
          intro x hx
          rcases List.mem_append.mp hx with hx | hx
          · exact hs x hx
          · rw [List.mem_singleton.mp hx]
            exact hns
    · rw [h2]
      simp only [if_true]
      obtain ⟨sm, hsm, hp⟩ := h3
      refine iff_of_true h1 ?_
      exact ⟨sm, by
        rw [hsm]
        exact List.mem_append_right _ (List.mem_singleton_self _), hp⟩

/-- C3: the encoder always returns normally — it is a total function
yielding the final split variable `Z` of the loop together with the
diagnostics — and the diagnostics' converged flag is `true` exactly when
some recorded checkup found the primal residual strictly below its
tolerance and the dual residual within its tolerance (on convergence the
loop breaks; exhausting `max_iter` merely leaves the flag `false`). -/
theorem c3_encoder_total_convergence_flag (p : EncParams) (max_iter : ℕ) :
    (_encoder p max_iter).1 = (encLoop p max_iter 0 (encInit p)).Z ∧
    ((_encoder p max_iter).2.2 = true ↔
      ∃ s ∈ (_encoder p max_iter).2.1,
        s.err_primal < s.eps_primal ∧ s.err_dual ≤ s.eps_dual) := by
  constructor
  · rfl
  · exact encLoop_converged_iff p max_iter 0 (encInit p) rfl
      (by intro x hx; simp [encInit] at hx)

/-! ### Parallel encoder (CDL.py lines 674-753)

`parallel_encoder(X, D, reg, n_threads, max_iter)` falls back to the
inline `_encoder` when `n_threads == 1 or n < n_threads`.  Otherwise it
computes `B = n / n_threads`, queues the ranges of `task_ranges`, has the
workers run an independent `_encoder` on each column slice `X[:, i:j]`,
and writes each result back into `A[:, i:j]` of a shared buffer
(`numpy.empty`, modelled as the zero matrix; every column `c < n` is
covered by exactly one range, so the initial contents never survive). -/

def colSlice (X : Mat) (i : ℕ) : Mat := fun r c => X r (i + c)

/-- One output-queue write `A[:, i:j] = a_ij` applied to the buffer. -/
def overlay (Acc : Mat) (tsk : ℕ × ℕ × Mat) : Mat := fun r c =>
  if tsk.1 ≤ c ∧ c < tsk.2.1 then tsk.2.2 r (c - tsk.1) else Acc r c

noncomputable def parallel_encoder (p : EncParams)
    (n_threads max_iter : ℕ) : Mat :=
  if n_threads = 1 ∨ p.n < n_threads then (_encoder p max_iter).1
  else
    ((task_ranges p.n (p.n / n_threads)).map (fun ij =>
        (ij.1, ij.2,
          (_encoder { p with n := ij.2 - ij.1, X := colSlice p.X ij.1 }
            max_iter).1))).foldl overlay (fun _ _ => 0)

lemma foldl_overlay_nomem (L : List (ℕ × ℕ × Mat)) (A0 : Mat) (r c : ℕ)
    (h : ∀ t ∈ L, ¬(t.1 ≤ c ∧ c < t.2.1)) :
    (L.foldl overlay A0) r c = A0 r c := by
  induction L generalizing A0 with
  | nil => rfl
  | cons t tl ih =>
    rw [List.foldl_cons,
      ih (overlay A0 t) (fun u hu => h u (List.mem_cons_of_mem _ hu))]
    simp only [overlay]
    rw [if_neg (h t (List.mem_cons_self _ _))]

lemma foldl_overlay_split (L1 L2 : List (ℕ × ℕ × Mat))
    (t : ℕ × ℕ × Mat) (A0 : Mat) (r c : ℕ)
    (hcov : t.1 ≤ c ∧ c < t.2.1)
    (h2 : ∀ u ∈ L2, ¬(u.1 ≤ c ∧ c < u.2.1)) :
    ((L1 ++ t :: L2).foldl overlay A0) r c = t.2.2 r (c - t.1) := by
  rw [List.foldl_append, List.foldl_cons,
    foldl_overlay_nomem L2 _ r c h2]
  simp only [overlay]
  rw [if_pos hcov]

lemma parallel_encoder_block (p : EncParams) (k max_iter r c : ℕ)
    (hk : 2 ≤ k) (hkn : k ≤ p.n) (hc : c < p.n) :
    parallel_encoder p k max_iter r c =
      (_encoder { p with
          n := min p.n ((c / (p.n / k)) * (p.n / k) + p.n / k) -
            (c / (p.n / k)) * (p.n / k),
          X := colSlice p.X ((c / (p.n / k)) * (p.n / k)) } max_iter).1 r
        (c - (c / (p.n / k)) * (p.n / k)) := by
  have hk1 : ¬(k = 1 ∨ p.n < k) := by omega
  rw [parallel_encoder, if_neg hk1]
  set B := p.n / k with hB
  set q := c / B with hq
  set cnt := (p.n + B - 1) / B with hcnt
  have hBpos : 0 < B := Nat.div_pos hkn (by omega)
  have htr : task_ranges p.n B =
      (List.range cnt).map (fun u => (u * B, min p.n (u * B + B))) := rfl
  have e3 := Nat.div_add_mod c B
  have e4 : c % B < B := Nat.mod_lt c hBpos
  clear_value B q cnt
  have e2 : cnt = (p.n - 1) / B + 1 := by
    rw [hcnt, show p.n + B - 1 = (p.n - 1) + B by omega,
      Nat.add_div_right _ hBpos]
  have e1 : c / B ≤ (p.n - 1) / B := Nat.div_le_div_right (by omega)
  have hqcnt : q < cnt := by
    rw [hq, e2]
    exact Nat.lt_succ_of_le e1
  have hcq : c < q * B + B := by
    rw [hq, Nat.mul_comm]
    omega
  have hrange : List.range cnt =
      List.range q ++ q ::
        (List.range (cnt - (q + 1))).map (fun x => (q + 1) + x) := by
    rw [show cnt = (q + 1) + (cnt - (q + 1)) by omega, List.range_add,
      List.range_succ, List.append_assoc, List.singleton_append,
      show q + 1 + (cnt - (q + 1)) - (q + 1) = cnt - (q + 1) by omega]
  rw [htr, hrange, List.map_map, List.map_append, List.map_cons]
  rw [foldl_overlay_split _ _ _ _ r c ?_ ?_]
  · simp only [Function.comp_apply]
  · simp only [Function.comp_apply]
    refine ⟨?_, lt_min hc hcq⟩
    rw [hq]
    exact Nat.div_mul_le_self c B
  · intro u hu
    obtain ⟨x, hx, rfl⟩ := List.mem_map.mp hu
    obtain ⟨y, hy, rfl⟩ := List.mem_map.mp hx
    simp only [Function.comp_apply]
    rintro ⟨habs, -⟩
    have h3 : (q + 1) * B ≤ ((q + 1) + y) * B :=
      Nat.mul_le_mul_right B (by omega)
    have h5 : c < (q + 1) * B := by
      rw [show (q + 1) * B = q * B + B from by ring]
      exact hcq
    exact absurd habs (not_le.mpr (lt_of_lt_of_le h5 h3))

/-- C6 (amended): the parallel encoder solves each contiguous column
block with an independent single-worker encoder run on that block alone —
output column `c` equals column `c - i` of `_encoder` applied to the
block `[i, min n (i+B))` containing `c`, with `B = n / k` — and the
`k = 1` fallback is exactly the single-worker encoder on the whole
matrix.  Block solves perform their own convergence tests and
`rho`-adaptation on block-local residual norms and `sqrt(size)`-scaled
tolerances, so for `k ≥ 2` the result can differ from the single-worker
encoder on the same data (see the counterexample). -/
theorem c6_parallel_blockwise (p : EncParams) (k max_iter r c : ℕ)
    (hk : 2 ≤ k) (hkn : k ≤ p.n) (hc : c < p.n) :
    (parallel_encoder p k max_iter r c =
      (_encoder { p with
          n := min p.n ((c / (p.n / k)) * (p.n / k) + p.n / k) -
            (c / (p.n / k)) * (p.n / k),
          X := colSlice p.X ((c / (p.n / k)) * (p.n / k)) } max_iter).1 r
        (c - (c / (p.n / k)) * (p.n / k))) ∧
    parallel_encoder p 1 max_iter = (_encoder p max_iter).1 :=
  ⟨parallel_encoder_block p k max_iter r c hk hkn hc, by
    rw [parallel_encoder, if_pos (Or.inl rfl)]⟩

/-- Trivial parameters for the C6 witness (zero data, identity reg). -/
noncomputable def pW6 : EncParams :=
  ⟨2, 2, 2, (fun _ _ => 0), (fun _ _ => 0), fun V _ => V⟩

/-- C6 witness: the blockwise characterization applied at `k = 2`,
column `1`, on concrete parameters. -/
theorem c6_parallel_blockwise_witness :
    (2 ≤ 2 ∧ 2 ≤ pW6.n ∧ 1 < pW6.n) ∧
      ((parallel_encoder pW6 2 2 0 1 =
        (_encoder { pW6 with
            n := min pW6.n ((1 / (pW6.n / 2)) * (pW6.n / 2) + pW6.n / 2) -
              (1 / (pW6.n / 2)) * (pW6.n / 2),
            X := colSlice pW6.X ((1 / (pW6.n / 2)) * (pW6.n / 2)) } 2).1 0
          (1 - (1 / (pW6.n / 2)) * (pW6.n / 2))) ∧
      parallel_encoder pW6 1 2 = (_encoder pW6 2).1) :=
  ⟨⟨by norm_num, by norm_num [pW6], by norm_num [pW6]⟩,
    c6_parallel_blockwise pW6 2 2 0 1 (by norm_num) (by norm_num [pW6])
      (by norm_num [pW6])⟩

/-! ### C6 counterexample data

Joint data: two signal columns, column 0 identically zero and column 1
equal to `(2/25, 3/50)` (norm `1/10`); dictionary `D = I₂` (one codeword,
`d = 1`, real part 1); regularizer the identity function — a
deterministic "proximal operator".  With two workers each column is
encoded alone; with one worker the two columns are encoded jointly.  The
tolerances scale with `sqrt(size)`, so the joint solve (size 4) accepts
the `t = 0` checkup (`ERR_dual = 1/5010 ≤ 2·10⁻⁴`) and stops, while the
column-1 block solve (size 2) rejects it (`1/5010 > √2·10⁻⁴`), halves
`rho` and runs one more iteration — producing a different activation. -/

noncomputable def Xc6 : Mat := fun r c =>
  if c = 1 then (if r = 0 then 2 / 25 else if r = 1 then 3 / 50 else 0)
  else 0

noncomputable def Dc6 : Mat := fun r c => if r = c then 1 else 0

/-- The identity regularizer (ignores `rho`). -/
def regId : Mat → ℝ → Mat := fun V _ => V

noncomputable def pC6 : EncParams := ⟨2, 2, 2, Dc6, Xc6, regId⟩

/-- Parameters of the worker that encodes column 1 alone. -/
noncomputable def pB6 : EncParams := ⟨2, 2, 1, Dc6, colSlice Xc6 1, regId⟩

lemma frob_zero (rows cols : ℕ) : frob rows cols (fun _ _ => 0) = 0 := by
  simp [frob]

lemma X_B6_00 : colSlice Xc6 1 0 0 = 2 / 25 := by norm_num [colSlice, Xc6]

lemma X_B6_10 : colSlice Xc6 1 1 0 = 3 / 50 := by norm_num [colSlice, Xc6]

lemma rows_B6 : acts_rows pB6 = 2 := by norm_num [acts_rows, pB6]

lemma n_B6 : pB6.n = 1 := rfl

lemma size_B6 : ((acts_rows pB6 * pB6.n : ℕ) : ℝ) = 2 := by
  norm_num [acts_rows, pB6]

lemma rho0_cast : ((RHO_INIT_A : ℚ) : ℝ) = 1 / 500 := by
  norm_num [RHO_INIT_A]

lemma Dnorm_B6 (i : ℕ) : Dnorm pB6 i = if i < 2 then 1 else 0 := by
  rcases i with _ | _ | i <;>
    norm_num [Dnorm, pB6, Dc6, Finset.sum_range_succ]

lemma dd_B6 : pB6.dd = 2 := rfl

lemma ddm_B6 : pB6.ddm = 2 := rfl

lemma D_B6 : pB6.D = Dc6 := rfl

/-- The `t = 0` ridge step of the column-1 block solve: from the zero
state, `A = X' / (1 + rho)` entrywise, i.e. `A = (500/501)·X'`. -/
lemma ridge0_B6 :
    _ridge pB6 (encInit pB6).rho (encInit pB6).dinv
      (fun r c => DXmat pB6 r c +
        (encInit pB6).rho * ((encInit pB6).Z r c - (encInit pB6).O r c)) =
      fun r c => 500 / 501 * colSlice Xc6 1 r c := by
  funext r c
  have hb : ∀ u v : ℕ, DXmat pB6 u v +
      (encInit pB6).rho * ((encInit pB6).Z u v - (encInit pB6).O u v) =
      colSlice Xc6 1 u v := by
    intro u v
    have hDX : DXmat pB6 u v = colSlice Xc6 1 u v := by
      rcases u with _ | _ | u <;>
        norm_num [DXmat, pB6, Dc6, colSlice, Xc6, Finset.sum_range_succ]
    simp [encInit, hDX]
  rw [_ridge]
  simp only [hb, dd_B6, ddm_B6, Finset.sum_range_succ, Finset.sum_range_zero]
  rw [show (encInit pB6).rho = ((RHO_INIT_A : ℚ) : ℝ) from rfl,
    show (encInit pB6).dinv = dinv0 pB6 ((RHO_INIT_A : ℚ) : ℝ) from rfl]
  simp only [dinv0, Dnorm_B6, rho0_cast]
  rcases r with _ | _ | r
  · norm_num [D_B6, Dc6]
    ring
  · norm_num [D_B6, Dc6]
    ring
  · have hx : colSlice Xc6 1 (r + 1 + 1) c = 0 := by
      rcases c with _ | c <;> norm_num [colSlice, Xc6]
    have h0 : Dc6 0 (r + 1 + 1) = 0 := by
      rw [show Dc6 0 (r + 1 + 1) =
        (if (0 : ℕ) = r + 1 + 1 then (1 : ℝ) else 0) from rfl,
        if_neg (by omega)]
    have h1 : Dc6 1 (r + 1 + 1) = 0 := by
      rw [show Dc6 1 (r + 1 + 1) =
        (if (1 : ℕ) = r + 1 + 1 then (1 : ℝ) else 0) from rfl,
        if_neg (by omega)]
    simp only [D_B6]
    rw [hx, h0, h1]
    norm_num

lemma frobX_B6 :
    frob 2 1 (fun r c => 500 / 501 * colSlice Xc6 1 r c) = 50 / 501 := by
  rw [frob]
  rw [show (∑ i ∈ Finset.range 2, ∑ j ∈ Finset.range 1,
      (fun r c => 500 / 501 * colSlice Xc6 1 r c) i j ^ 2) =
      ((50 : ℝ) / 501) ^ 2 by
    norm_num [Finset.sum_range_succ, colSlice, Xc6]]
  exact Real.sqrt_sq (by norm_num)

lemma sqrt2_bound : Real.sqrt 2 < 1000 / 501 := by
  rw [show (1000 : ℝ) / 501 = Real.sqrt ((1000 / 501) ^ 2) from
    (Real.sqrt_sq (by norm_num)).symm]
  apply Real.sqrt_lt_sqrt (by norm_num)
  norm_num

lemma reg_B6 : pB6.reg = regId := rfl

lemma rho_update_blk :
    rho_update (α := ℝ) (1 / 500) 0 (1 / 500 * (50 / 501)) =
      (1 / 1000, 2) := by
  rw [rho_update, if_neg (by norm_num [MU, TAU, RHO_MAX]),
    if_pos (by norm_num [MU, TAU, RHO_MIN])]
  norm_num [TAU, Prod.ext_iff]

lemma blk0_facts :
    (encStep pB6 0 (encInit pB6)).2 = false ∧
    (encStep pB6 0 (encInit pB6)).1.rho = 1 / 1000 ∧
    (encStep pB6 0 (encInit pB6)).1.O 0 0 = 0 ∧
    (encStep pB6 0 (encInit pB6)).1.Z 0 0 = 40 / 501 ∧
    (encStep pB6 0 (encInit pB6)).1.dinv 0 = 1 / 1001 := by
  have hs : ((2 * 1 : ℕ) : ℝ) = 2 := by norm_num
  simp only [encStep]
  rw [if_neg (show ¬((0 : ℕ) % T_CHECKUP ≠ 0) by norm_num [T_CHECKUP])]
  rw [ridge0_B6]
  rw [show (encInit pB6).rho = 1 / 500 from by
    rw [show (encInit pB6).rho = ((RHO_INIT_A : ℚ) : ℝ) from rfl, rho0_cast]]
  rw [show (encInit pB6).Z = fun _ _ => (0 : ℝ) from rfl,
    show (encInit pB6).O = fun _ _ => (0 : ℝ) from rfl]
  simp only [reg_B6, regId, rows_B6, n_B6, hs, add_zero, sub_zero, sub_self,
    zero_add, zero_mul, frob_zero, frobX_B6, max_self, mul_zero]
  split_ifs with h
  · exfalso
    have hc := h.2
    rw [show ((ABSTOL : ℚ) : ℝ) = 1 / 10000 from by norm_num [ABSTOL]] at hc
    have hb := sqrt2_bound
    linarith
  · refine ⟨rfl, ?_, ?_, ?_, ?_⟩
    · rw [rho_update_blk]
    · norm_num
    · norm_num [colSlice, Xc6]
    · rw [rho_update_blk]
      norm_num [dinv0, Dnorm_B6]

lemma blk1_facts :
    (encStep pB6 1 ((encStep pB6 0 (encInit pB6)).1)).2 = false ∧
    (encStep pB6 1 ((encStep pB6 0 (encInit pB6)).1)).1.Z 0 0 =
      40120 / 501501 := by
  obtain ⟨-, h1, h2, h3, h4⟩ := blk0_facts
  generalize hS : (encStep pB6 0 (encInit pB6)).1 = s1 at h1 h2 h3 h4 ⊢
  constructor
  · simp only [encStep]
    rw [if_pos (show ((1 : ℕ) % T_CHECKUP ≠ 0) by norm_num [T_CHECKUP])]
  · simp only [encStep]
    rw [if_pos (show ((1 : ℕ) % T_CHECKUP ≠ 0) by norm_num [T_CHECKUP])]
    simp only [reg_B6, regId]
    rw [_ridge]
    simp only [dd_B6, ddm_B6, D_B6, Finset.sum_range_succ,
      Finset.sum_range_zero]
    norm_num [Dc6]
    rw [h1, h2, h3, h4]
    rw [show DXmat pB6 0 0 = 2 / 25 from by
      norm_num [DXmat, pB6, Dc6, colSlice, Xc6, Finset.sum_range_succ]]
    norm_num

lemma blk_value : (_encoder pB6 2).1 0 0 = 40120 / 501501 := by
  obtain ⟨h5, -, -, -, -⟩ := blk0_facts
  obtain ⟨h6, h7⟩ := blk1_facts
  simp [_encoder, encLoop, h5, h6, h7]

lemma reg_C6 : pC6.reg = regId := rfl

lemma dd_C6 : pC6.dd = 2 := rfl

lemma ddm_C6 : pC6.ddm = 2 := rfl

lemma D_C6 : pC6.D = Dc6 := rfl

lemma rows_C6 : acts_rows pC6 = 2 := by norm_num [acts_rows, pC6]

lemma n_C6 : pC6.n = 2 := rfl

lemma Dnorm_C6 (i : ℕ) : Dnorm pC6 i = if i < 2 then 1 else 0 := by
  rcases i with _ | _ | i <;>
    norm_num [Dnorm, pC6, Dc6, Finset.sum_range_succ]

/-- The `t = 0` ridge step of the joint (single-worker) solve. -/
lemma ridge0_C6 :
    _ridge pC6 (encInit pC6).rho (encInit pC6).dinv
      (fun r c => DXmat pC6 r c +
        (encInit pC6).rho * ((encInit pC6).Z r c - (encInit pC6).O r c)) =
      fun r c => 500 / 501 * Xc6 r c := by
  funext r c
  have hb : ∀ u v : ℕ, DXmat pC6 u v +
      (encInit pC6).rho * ((encInit pC6).Z u v - (encInit pC6).O u v) =
      Xc6 u v := by
    intro u v
    have hDX : DXmat pC6 u v = Xc6 u v := by
      rcases u with _ | _ | u <;>
        norm_num [DXmat, pC6, Dc6, Xc6, Finset.sum_range_succ]
    simp [encInit, hDX]
  rw [_ridge]
  simp only [hb, dd_C6, ddm_C6, Finset.sum_range_succ, Finset.sum_range_zero]
  rw [show (encInit pC6).rho = ((RHO_INIT_A : ℚ) : ℝ) from rfl,
    show (encInit pC6).dinv = dinv0 pC6 ((RHO_INIT_A : ℚ) : ℝ) from rfl]
  simp only [dinv0, Dnorm_C6, rho0_cast]
  rcases r with _ | _ | r
  · norm_num [D_C6, Dc6]
    ring
  · norm_num [D_C6, Dc6]
    ring
  · have hx : Xc6 (r + 1 + 1) c = 0 := by
      rcases c with _ | c <;> norm_num [Xc6]
    have h0 : Dc6 0 (r + 1 + 1) = 0 := by
      rw [show Dc6 0 (r + 1 + 1) =
        (if (0 : ℕ) = r + 1 + 1 then (1 : ℝ) else 0) from rfl,
        if_neg (by omega)]
    have h1 : Dc6 1 (r + 1 + 1) = 0 := by
      rw [show Dc6 1 (r + 1 + 1) =
        (if (1 : ℕ) = r + 1 + 1 then (1 : ℝ) else 0) from rfl,
        if_neg (by omega)]
    simp only [D_C6]
    rw [hx, h0, h1]
    norm_num

lemma frobX_C6 :
    frob 2 2 (fun r c => 500 / 501 * Xc6 r c) = 50 / 501 := by
  rw [frob]
  rw [show (∑ i ∈ Finset.range 2, ∑ j ∈ Finset.range 2,
      (fun r c => 500 / 501 * Xc6 r c) i j ^ 2) = ((50 : ℝ) / 501) ^ 2 by
    norm_num [Finset.sum_range_succ, Xc6]]
  exact Real.sqrt_sq (by norm_num)

lemma sqrt_four : Real.sqrt 4 = 2 := by
  rw [show (4 : ℝ) = 2 ^ 2 by norm_num]
  exact Real.sqrt_sq (by norm_num)

lemma joint0_facts :
    (encStep pC6 0 (encInit pC6)).2 = true ∧
    (encStep pC6 0 (encInit pC6)).1.Z 0 1 = 40 / 501 := by
  have hs : ((2 * 2 : ℕ) : ℝ) = 4 := by norm_num
  simp only [encStep]
  rw [if_neg (show ¬((0 : ℕ) % T_CHECKUP ≠ 0) by norm_num [T_CHECKUP])]
  rw [ridge0_C6]
  rw [show (encInit pC6).rho = 1 / 500 from by
    rw [show (encInit pC6).rho = ((RHO_INIT_A : ℚ) : ℝ) from rfl, rho0_cast]]
  rw [show (encInit pC6).Z = fun _ _ => (0 : ℝ) from rfl,
    show (encInit pC6).O = fun _ _ => (0 : ℝ) from rfl]
  simp only [reg_C6, regId, rows_C6, n_C6, hs, add_zero, sub_zero, sub_self,
    zero_add, zero_mul, frob_zero, frobX_C6, max_self, mul_zero, sqrt_four]
  split_ifs with h
  · exact ⟨rfl, by norm_num [Xc6]⟩
  · exfalso
    apply h
    constructor
    · have h1 : (0 : ℝ) < 2 * ((ABSTOL : ℚ) : ℝ) := by norm_num [ABSTOL]
      have h2 : (0 : ℝ) ≤ ((RELTOL : ℚ) : ℝ) * (50 / 501) := by
        norm_num [RELTOL]
      linarith
    · norm_num [ABSTOL, RELTOL]

lemma joint_value : (_encoder pC6 2).1 0 1 = 40 / 501 := by
  obtain ⟨h1, h2⟩ := joint0_facts
  simp [_encoder, encLoop, h1, h2]

/-- C6 counterexample: on the concrete data above (`D = I₂`, column 0
zero, column 1 = `(2/25, 3/50)`, identity regularizer, `max_iter = 2`),
the two-worker parallel encoder and the single-worker encoder disagree on
entry `(0, 1)`: the joint solve converges at the `t = 0` checkup and
returns `(500/501)·X`, while the column-1 block solve fails its (smaller,
`sqrt(2)`-scaled) tolerance, rescales `rho` and iterates once more. -/
theorem c6_counterexample :
    parallel_encoder pC6 2 2 0 1 ≠ parallel_encoder pC6 1 2 0 1 := by
  have hser : parallel_encoder pC6 1 2 0 1 = 40 / 501 := by
    rw [parallel_encoder, if_pos (Or.inl rfl)]
    exact joint_value
  have hpar : parallel_encoder pC6 2 2 0 1 = 40120 / 501501 := by
    rw [parallel_encoder, if_neg (by norm_num [pC6])]
    have htr : task_ranges pC6.n (pC6.n / 2) = [(0, 1), (1, 2)] := by
      decide
    rw [htr]
    simp only [List.map_cons, List.map_nil, List.foldl_cons, List.foldl_nil]
    simp only [overlay]
    rw [if_pos (show ((1, 2,
        (_encoder { pC6 with n := 2 - 1, X := colSlice pC6.X 1 } 2).1) :
          ℕ × ℕ × Mat).1 ≤ 1 ∧ (1 : ℕ) <
        ((1, 2, (_encoder { pC6 with n := 2 - 1, X := colSlice pC6.X 1 }
          2).1) : ℕ × ℕ × Mat).2.1 by norm_num)]
    exact blk_value
  rw [hpar, hser]
  norm_num
